import Mathlib

/-!
Shallow embedding of the archerfish task runner's core modules
(`src/lib/screenshot.js`, the tasks module with `findTasks` / `runTasks` /
`startWorker` / `runTask` / `runHook`, and the `Profile` shape from
`src/lib/config.js`), together with proofs settling the specification claims.

External capabilities (Node's `path` module, the `glob` package, the browser,
module loading) are modelled as explicit function parameters; user task and
hook modules are modelled by their observable behaviour.
-/

namespace Archerfish

/-- Entry emitted through the logger capability (`getLogger("cli")` and friends). -/
inductive LogEntry where
  | trace (msg : String)
  | info (msg : String)
  | error (msg : String)
deriving DecidableEq, Repr

/-- Model of a thrown JavaScript value: `str` is the result of `String(err)` and
`stack` is `err.stack` when the thrown value is an object with a truthy stack. -/
structure JsError where
  stack : Option String
  str : String
deriving DecidableEq, Repr

/-- Model of an arbitrary JavaScript value where only `typeof v === "string"`
and the string content are observed. -/
inductive JsVal where
  | str (s : String)
  | num (n : Int)
  | boolean (b : Bool)
  | undef
deriving DecidableEq, Repr

/-- Property table of a JavaScript object used as a string-keyed map, in
property-insertion order. -/
abbrev RegMap (α : Type) := List (String × α)

/-- Setting a property on a JavaScript object: an existing key keeps its
position and gets the new value, a new key is appended.  This is the effect of
`Object.defineProperty(obj, n, { value, writable, configurable, enumerable })`
as well as of plain assignment for data properties. -/
def jsSetProp {α : Type} : RegMap α → String → α → RegMap α
  | [], n, v => [(n, v)]
  | (k, w) :: rest, n, v =>
    if k = n then (k, v) :: rest else (k, w) :: jsSetProp rest n v

/-- Reading a property of a JavaScript object (`obj[n]`, `undefined` as `none`). -/
def jsLookup {α : Type} : RegMap α → String → Option α
  | [], _ => none
  | (k, w) :: rest, n => if k = n then some w else jsLookup rest n

/-- First index of `x` in `arr` (`Array.prototype.indexOf`; an absent element
yields `-1` in JavaScript, modelled here as `arr.length`, which can never equal
the index of a present element). -/
def jsIndexOf (arr : List String) (x : String) : Nat :=
  match arr with
  | [] => 0
  | a :: rest => if a = x then 0 else jsIndexOf rest x + 1

/-- Capabilities taken from Node's `path` module: `path.relative(from, to)`,
`path.resolve(a, b)` and `path.resolve(a, b, c)`. -/
structure PathOps where
  relative : String → String → String
  resolve : String → String → String
  resolve3 : String → String → String → String

/-- Hook file paths of a profile (`readHooks` in `src/lib/config.js` only ever
stores the two recognised keys, so the frozen object has exactly these two
optional entries). -/
structure Hooks where
  beforeAll : Option String
  afterAll : Option String
deriving DecidableEq, Repr

/-- Property read `profile.hooks[key]`; any key other than the two stored ones
reads as `undefined`. -/
def Hooks.get (h : Hooks) (key : String) : Option String :=
  if key = "beforeAll" then h.beforeAll
  else if key = "afterAll" then h.afterAll
  else none

/-- Profile object from `src/lib/config.js` (its `data` payload is opaque to the
subsystems verified here and is omitted). -/
structure Profile where
  name : String
  rootDirPath : String
  hooks : Hooks
deriving DecidableEq, Repr

/-- Tasks directory of a profile: `path.resolve(rootDirPath, "tasks", name.split("_")[0])`. -/
def Profile.tasksDirPath (ops : PathOps) (p : Profile) : String :=
  ops.resolve3 p.rootDirPath "tasks" (String.mk (p.name.data.takeWhile (fun c => c ≠ '_')))

/-- Screenshots directory of a profile: `path.resolve(rootDirPath, "screenshots", name)`. -/
def Profile.screenshotsDirPath (ops : PathOps) (p : Profile) : String :=
  ops.resolve3 p.rootDirPath "screenshots" p.name

/-! Screenshot path generation (`src/lib/screenshot.js`). -/

/-- The `extByType` map of `src/lib/screenshot.js`: recognised image types and
their file extensions. -/
def extByType (t : String) : Option String :=
  if t = "png" then some ".png"
  else if t = "jpeg" then some ".jpg"
  else none

/-- Characters kept by the name sanitiser (`/[^0-9A-Za-z_-]/g` removes the rest). -/
def isNameChar (c : Char) : Bool :=
  (('0' ≤ c ∧ c ≤ '9') ∨ ('A' ≤ c ∧ c ≤ 'Z') ∨ ('a' ≤ c ∧ c ≤ 'z') ∨ c = '_' ∨ c = '-')

/-- The sanitiser `String(name).replace(/[^0-9A-Za-z_-]/g, "")`. -/
def sanitizeName (s : String) : String :=
  String.mk (s.data.filter isNameChar)

/-- Whether the unescaped `.` of a JavaScript regular expression (without the
`s` flag) matches a character: every character except the four line
terminators LF, CR, U+2028 and U+2029. -/
def jsRegexDotMatches (c : Char) : Bool :=
  !(c = '\n' || c = '\r' || c = Char.ofNat 0x2028 || c = Char.ofNat 0x2029)

/-- Model of `taskFileName.replace(/.js$/, "")` on the character list: the
pattern is anchored at the end, so the only possible match is the final three
characters, which must be any dot-matchable character followed by `j` and `s`;
a match is replaced by the empty string, otherwise the input is unchanged. -/
def replaceDotJsEnd (l : List Char) : List Char :=
  match l.reverse with
  | 's' :: 'j' :: a :: rest => if jsRegexDotMatches a then rest.reverse else l
  | _ => l

/-- The `taskFileName.replace(/.js$/, "")` step of `generateScreenshotFilePath`. -/
def stripJsExt (s : String) : String :=
  String.mk (replaceDotJsEnd s.data)

/-- Base of all screenshot paths of one task:
`path.resolve(profile.screenshotsDirPath(), taskFileName.replace(/.js$/, ""))`
where `taskFileName = path.relative(profile.tasksDirPath(), taskFilePath)`. -/
def screenshotFilePathBase (ops : PathOps) (profile : Profile) (taskFilePath : String) : String :=
  ops.resolve (profile.screenshotsDirPath ops)
    (stripJsExt (ops.relative (profile.tasksDirPath ops) taskFilePath))

/-- Numeric suffix for the `counter`-th unnamed call:
`counter === 0 ? "" : "-" + counter.toString()`. -/
def numSuffix (counter : Nat) : String :=
  if counter = 0 then "" else "-" ++ toString counter

/-- Body of the closure returned by `generateScreenshotFilePath`, with the
private `counter` passed and returned explicitly.  An unknown type throws
before the counter is touched; an unnamed call consumes the counter; a named
call appends the sanitised name and leaves the counter alone. -/
def genPathStep (base : String) (type : String) (name : Option String) (counter : Nat) :
    Except String String × Nat :=
  match extByType type with
  | none => (Except.error ("unknown type '" ++ type ++ "'"), counter)
  | some ext =>
    match name with
    | none => (Except.ok (base ++ numSuffix counter ++ ext), counter + 1)
    | some n => (Except.ok (base ++ "-" ++ sanitizeName n ++ ext), counter)

/-- One invocation of a screenshot path-generator closure. -/
structure PathCall where
  type : String
  name : Option String
deriving DecidableEq, Repr

/-- Results of a sequence of calls to one path-generator closure whose counter
starts at `counter`. -/
def runCalls (base : String) (counter : Nat) : List PathCall → List (Except String String)
  | [] => []
  | c :: rest =>
    let r := genPathStep base c.type c.name counter
    r.1 :: runCalls base r.2 rest

/-- Number of unnamed calls in a call list. -/
def countUnnamed (cs : List PathCall) : Nat :=
  (cs.filter (fun c => c.name = none)).length

/-- Resolution of the capture type in `generateScreenshotFun`:
`typeof opts.type === "string" ? opts.type : "png"`. -/
def resolveType (optsType : JsVal) : String :=
  match optsType with
  | JsVal.str s => s
  | _ => "png"

/-- Observable outcome of a successful capture: the destination path and type
handed to the target's native screenshot capability (these two always win over
caller-supplied options in the `Object.assign` merge). -/
structure CaptureCall where
  path : String
  type : String
deriving DecidableEq, Repr

/-- Body of the capture function returned by `generateScreenshotFun`: resolve
the type from `opts.type`, generate the file path (an unknown-type error from
the generator propagates and rejects the call), then delegate to the external
directory-creation and screenshot capabilities with the resolved path/type. -/
def screenshotCall (base : String) (counter : Nat) (name : Option String) (optsType : JsVal) :
    Except String CaptureCall × Nat :=
  let type := resolveType optsType
  match genPathStep base type name counter with
  | (Except.ok filePath, counter2) => (Except.ok ⟨filePath, type⟩, counter2)
  | (Except.error e, counter2) => (Except.error e, counter2)

/-! Task discovery (`findTasks`, `globAll`, `distinct`). -/

/-- Options handed to the `glob` package by `findTasks`. -/
structure GlobOpts where
  cwd : String
  nodir : Bool
  absolute : Bool
deriving DecidableEq, Repr

/-- The index-aware filter body of `distinct`:
`arr.filter((elem, i) => arr.indexOf(elem) === i)`, keeping each element's
first occurrence. -/
def distinctAux (arr : List String) : List String → Nat → List String
  | [], _ => []
  | x :: rest, i =>
    if jsIndexOf arr x = i then x :: distinctAux arr rest (i + 1)
    else distinctAux arr rest (i + 1)

/-- Duplicate removal used by `globAll`. -/
def distinct (arr : List String) : List String :=
  distinctAux arr arr 0

/-- The `globAll` helper: resolve every pattern with the (external) glob
capability under the same options, concatenate the per-pattern results in
order, then deduplicate. -/
def globAll (matcher : String → GlobOpts → List String) (globs : List String)
    (opts : GlobOpts) : List String :=
  distinct ((globs.map (fun g => matcher g opts)).flatten)

/-- The `findTasks` function: an empty pattern list is completed to the single
default pattern; matching runs against the profile's tasks directory with
directories excluded and absolute results; an empty result set is the
`no tasks found` error. -/
def findTasks (matcher : String → GlobOpts → List String) (ops : PathOps)
    (profile : Profile) (globs : List String) : Except String (List String) :=
  let completedGlobs := if globs = [] then ["**/*.js"] else globs
  let taskFilePaths :=
    globAll matcher completedGlobs ⟨profile.tasksDirPath ops, true, true⟩
  if taskFilePaths = [] then Except.error "no tasks found" else Except.ok taskFilePaths

/-! Glob pattern semantics.  Modelled from the spec: the glob-resolution
capability (`matchFiles(pattern, {cwd, excludeDirs, absolute})`, the external
`glob` package, which is not part of this repository) restricted to the
constructs appearing in the default pattern: literal characters, `*` within a
path segment, the `**` globstar segment, and the rule that a leading dot is
only matched literally. -/

/-- Fuelled matcher of one glob segment against one path-segment: `*` matches
any (possibly empty) run of characters, other characters match literally. -/
def segMatchFuel : Nat → List Char → List Char → Bool
  | 0, _, _ => false
  | fuel + 1, p, s =>
    match p, s with
    | [], [] => true
    | '*' :: ps, s2 =>
      segMatchFuel fuel ps s2 ||
        (match s2 with
         | [] => false
         | _ :: s3 => segMatchFuel fuel ('*' :: ps) s3)
    | c :: ps, d :: s3 => (c = d) && segMatchFuel fuel ps s3
    | _, _ => false

/-- Segment matcher with enough fuel (every recursive call shrinks
`p.length + s.length`). -/
def segMatch (p s : List Char) : Bool :=
  segMatchFuel (p.length + s.length + 1) p s

/-- Segment matcher with the default-dot rule: a segment starting with `.` is
only matched by a pattern that starts with a literal `.`. -/
def segMatchDot (p s : List Char) : Bool :=
  match s with
  | '.' :: _ =>
    (match p with
     | '.' :: _ => segMatch p s
     | _ => false)
  | _ => segMatch p s

/-- Fuelled matcher of a segment-split glob pattern against a segment-split
relative path; `**` matches any number of non-hidden segments. -/
def pathMatchFuel : Nat → List (List Char) → List (List Char) → Bool
  | 0, _, _ => false
  | fuel + 1, p, s =>
    match p, s with
    | [], [] => true
    | pseg :: ps, s2 =>
      if pseg = ['*', '*'] then
        pathMatchFuel fuel ps s2 ||
          (match s2 with
           | [] => false
           | sseg :: ss =>
             (match sseg with
              | '.' :: _ => false
              | _ => pathMatchFuel fuel (pseg :: ps) ss))
      else
        (match s2 with
         | [] => false
         | sseg :: ss => segMatchDot pseg sseg && pathMatchFuel fuel ps ss)
    | _, _ => false

/-- Splits a path-like string on `/` into character-list segments. -/
def splitSegsAux : List Char → List Char → List (List Char)
  | [], acc => [acc.reverse]
  | '/' :: rest, acc => acc.reverse :: splitSegsAux rest []
  | c :: rest, acc => splitSegsAux rest (c :: acc)

/-- Whether a glob pattern matches a relative file path. -/
def globMatch (pat file : String) : Bool :=
  let ps := splitSegsAux pat.data []
  let ss := splitSegsAux file.data []
  pathMatchFuel (ps.length + ss.length + 1) ps ss

/-! Per-task invocation context (`runTask`'s `Object.assign` merge). -/

/-- Values appearing in a task's invocation context: the five fixed fields
built by `runTask` and the values registered by the `beforeAll` hook (of an
arbitrary type `α`). -/
inductive CtxVal (α : Type) where
  | profileVal (p : Profile)
  | browserVal
  | getLoggerVal
  | sleepVal
  | screenshotVal (taskFilePath : String)
  | reg (a : α)
deriving DecidableEq, Repr

/-- The effect of `Object.assign(target, source)` on the property table:
properties of `source` are set on `target` in order, later writes winning. -/
def objectAssign {β : Type} (target source : List (String × β)) : List (String × β) :=
  source.foldl (fun acc kv => jsSetProp acc kv.1 kv.2) target

/-- The first argument of `runTask`'s `Object.assign`: the fixed context
fields, in source order. -/
def fixedTaskArgs (α : Type) (profile : Profile) (taskFilePath : String) :
    List (String × CtxVal α) :=
  [("profile", CtxVal.profileVal profile),
   ("browser", CtxVal.browserVal),
   ("getLogger", CtxVal.getLoggerVal),
   ("sleep", CtxVal.sleepVal),
   ("screenshot", CtxVal.screenshotVal taskFilePath)]

/-- The invocation context `runTask` passes to the task function:
`Object.assign({ profile, browser, getLogger, sleep, screenshot }, registeredArgs)`. -/
def mkTaskArgs {α : Type} (profile : Profile) (taskFilePath : String)
    (registeredArgs : RegMap α) : List (String × CtxVal α) :=
  objectAssign (fixedTaskArgs α profile taskFilePath)
    (registeredArgs.map (fun kv => (kv.1, CtxVal.reg kv.2)))

/-! The hook runner (`runHook`), with the `registeredArgs` object on an
explicit heap so that aliasing between the returned value and the `register`
closure's target is observable. -/

/-- Heap of `registeredArgs` objects; a reference is an index into `cells`. -/
structure Heap (α : Type) where
  cells : List (RegMap α)
deriving DecidableEq, Repr

/-- Allocates a fresh object, returning the new heap and its reference. -/
def Heap.alloc {α : Type} (h : Heap α) (m : RegMap α) : Heap α × Nat :=
  (⟨h.cells ++ [m]⟩, h.cells.length)

/-- Reads the object behind a reference. -/
def Heap.read {α : Type} (h : Heap α) (r : Nat) : RegMap α :=
  (h.cells.get? r).getD []

/-- Overwrites the object behind a reference. -/
def Heap.write {α : Type} (h : Heap α) (r : Nat) (m : RegMap α) : Heap α :=
  ⟨h.cells.set r m⟩

/-- One call of the `register(name, value)` closure created in `runHook`: it
performs `Object.defineProperty` on the `registeredArgs` object it closes
over, wherever that object now lives. -/
def applyRegister {α : Type} (h : Heap α) (r : Nat) (n : String) (v : α) : Heap α :=
  h.write r (jsSetProp (h.read r) n v)

/-- Sequence of `register` calls applied to the same object. -/
def applyCalls {α : Type} (h : Heap α) (r : Nat) : List (String × α) → Heap α
  | [] => h
  | (n, v) :: rest => applyCalls (applyRegister h r n v) r rest

/-- The frozen `hookKeys` table: `hookKeys[key]`, `undefined` for other keys. -/
def hookKeys (key : String) : Option String :=
  if key = "beforeAll" then some "beforeAll"
  else if key = "afterAll" then some "afterAll"
  else none

/-- Observable behaviour of a user hook module: the `register(name, value)`
calls it makes (in order) while running, and whether its promise resolves or
rejects.  When no `register` capability is supplied the calls cannot occur. -/
structure HookBehavior (α : Type) where
  calls : List (String × α)
  result : Except String Unit

/-- Observable outcome of a completed `runHook` call: the heap after the hook
ran, the returned value (`some` reference to the `registeredArgs` object, or
`none` for `undefined`), the module paths loaded with `require`, and the log
entries emitted. -/
structure HookOutcome (α : Type) where
  heap : Heap α
  ret : Option Nat
  loaded : List String
  log : List LogEntry
deriving DecidableEq, Repr

/-- The `runHook` function: validate the key, create the fresh
`registeredArgs` object, and if the profile declares a hook path for the key,
resolve it against the profile root, load and invoke the module (with the
`register` capability exactly when `enableArgRegistration` is set, a hook
rejection propagating); finally return `registeredArgs` when registration was
enabled and `undefined` otherwise. -/
def runHook {α : Type} (ops : PathOps) (hookAt : String → HookBehavior α) (h : Heap α)
    (profile : Profile) (key : String) (enableArgRegistration : Bool) :
    Except String (HookOutcome α) :=
  if (hookKeys key).isNone then Except.error ("unknown hook key '" ++ key ++ "'")
  else
    let alloc := h.alloc []
    match profile.hooks.get key with
    | none =>
      Except.ok ⟨alloc.1, if enableArgRegistration then some alloc.2 else none, [], []⟩
    | some relPath =>
      let hookPath := ops.resolve profile.rootDirPath relPath
      let b := hookAt hookPath
      let h2 := if enableArgRegistration then applyCalls alloc.1 alloc.2 b.calls else alloc.1
      match b.result with
      | Except.ok _ =>
        Except.ok ⟨h2, if enableArgRegistration then some alloc.2 else none, [hookPath],
          [LogEntry.trace ("Running " ++ key ++ " hook: " ++ relPath)]⟩
      | Except.error e => Except.error e

/-! The task scheduler (`runTasks`, `startWorker`, `runTask`). -/

/-- Error-log line of a failed task: the task is identified by its path
relative to the tasks directory, and the stack is used when available
(`err && err.stack`), the stringified value otherwise. -/
def taskFailMsg (taskFileName : String) (e : JsError) : String :=
  "Task '" ++ taskFileName ++ "' failed:\n" ++
    (match e.stack with
     | some st => st
     | none => e.str)

/-- Fixed data of one `runTasks` run: the path capabilities, the profile, and
the observable behaviour of the task module at each path (the module is loaded
and its function awaited inside `runTask`'s `try`; a load failure and a task
rejection are both an `Except.error`). -/
structure SchedParams where
  ops : PathOps
  profile : Profile
  taskFn : String → Except JsError Unit

/-- Task name used in log lines:
`path.relative(profile.tasksDirPath(), taskFilePath)`. -/
def SchedParams.taskName (P : SchedParams) (t : String) : String :=
  P.ops.relative (P.profile.tasksDirPath P.ops) t

/-- Concurrency level of a run:
`Math.min(taskFilePaths.length, Number.isInteger(mc) && mc > 0 ? mc : 1)`
(`none` stands for a missing or non-integer `maxConcurrency`). -/
def concurrencyOf (taskCount : Nat) (maxConcurrency : Option Int) : Nat :=
  min taskCount
    (match maxConcurrency with
     | some m => if 0 < m then m.toNat else 1
     | none => 1)

/-- State of one worker: at the loop head about to test the queue, awaiting
`runTask` on a path, or finished. -/
inductive WStatus where
  | idle
  | running (t : String)
  | done
deriving DecidableEq, Repr

/-- State of a scheduler run: the shared queue, the workers, the log, and the
tasks whose `runTask` has been started resp. has completed. -/
structure SchedState where
  queue : List String
  workers : List WStatus
  log : List LogEntry
  started : List String
  finished : List String
deriving DecidableEq, Repr

/-- One scheduling turn of worker `i`.  An idle worker synchronously checks
`queue.length > 0` and pops the last element (this segment has no await point,
so it is atomic), logs the `runTask` trace line and starts awaiting the task;
with an empty queue it leaves its loop.  A running worker's await completes:
on a rejection the error is caught and logged, and the worker returns to its
loop head.  `none` means worker `i` cannot act (already done, or no such
worker). -/
def workerStep (P : SchedParams) (s : SchedState) (i : Nat) : Option SchedState :=
  match s.workers[i]? with
  | some WStatus.idle =>
    (match s.queue.getLast? with
     | some t =>
       some { queue := s.queue.dropLast,
              workers := s.workers.set i (WStatus.running t),
              log := s.log ++ [LogEntry.trace ("Runing task: " ++ P.taskName t)],
              started := s.started ++ [t],
              finished := s.finished }
     | none => some { s with workers := s.workers.set i WStatus.done })
  | some (WStatus.running t) =>
    some { s with
           workers := s.workers.set i WStatus.idle,
           finished := s.finished ++ [t],
           log := s.log ++
             (match P.taskFn t with
              | Except.ok _ => []
              | Except.error e => [LogEntry.error (taskFailMsg (P.taskName t) e)]) }
  | _ => none

/-- Runs the scheduler under an interleaving given as the sequence of worker
indices taking turns (indices that cannot act are skipped).  Quantifying over
all schedules covers every interleaving the event loop can produce. -/
def runSched (P : SchedParams) : SchedState → List Nat → SchedState
  | s, [] => s
  | s, i :: rest =>
    match workerStep P s i with
    | some s2 => runSched P s2 rest
    | none => runSched P s rest

/-- Initial state of `runTasks`: the queue seeded with all task paths, the
computed number of workers all at their loop heads, and the initial trace
line. -/
def initState (tasks : List String) (mc : Option Int) : SchedState :=
  { queue := tasks,
    workers := List.replicate (concurrencyOf tasks.length mc) WStatus.idle,
    log := [LogEntry.trace
      ("Runing tasks... (concurrency = " ++ toString (concurrencyOf tasks.length mc) ++ ")")],
    started := [],
    finished := [] }

/-- Whether every worker has left its loop, i.e. `Promise.all(workers)` has
resolved. -/
def allDone (s : SchedState) : Bool :=
  s.workers.all (fun w => w = WStatus.done)

/-- The `runTasks` function under a given interleaving: `some` final state when
all workers have finished (the promise resolved, and the summary line is
logged), `none` when the given schedule is too short to finish the run. -/
def runTasks (P : SchedParams) (tasks : List String) (mc : Option Int)
    (sched : List Nat) : Option SchedState :=
  let final := runSched P (initState tasks mc) sched
  if allDone final then
    some { final with log := final.log ++ [LogEntry.info "All tasks finished!"] }
  else none

/-- The task paths currently being processed by some worker. -/
def runningTasks (ws : List WStatus) : List String :=
  ws.filterMap (fun w =>
    match w with
    | WStatus.running t => some t
    | _ => none)

/-- Remaining work of one worker: an idle worker will take at least one more
turn, a running worker three (its completion, its next queue check, and the
exit), a done worker none. -/
def wWeight : WStatus → Nat
  | WStatus.idle => 1
  | WStatus.running _ => 3
  | WStatus.done => 0

/-- Termination measure of a scheduler state: every worker turn strictly
decreases it. -/
def schedMeasure (s : SchedState) : Nat :=
  3 * s.queue.length + (s.workers.map wWeight).sum

/-- Inductive invariant of the scheduler: the queue, the in-flight tasks and
the finished tasks always partition the initial task list; the started tasks
are exactly the in-flight plus finished ones; no worker leaves its loop while
the queue is non-empty; the worker count never changes; and every finished,
failing task has its error logged. -/
structure SchedInv (P : SchedParams) (tasks : List String) (k : Nat) (s : SchedState) : Prop where
  conserv : (s.queue ++ runningTasks s.workers ++ s.finished).Perm tasks
  started_perm : s.started.Perm (runningTasks s.workers ++ s.finished)
  no_done : s.queue ≠ [] → ∀ w ∈ s.workers, w ≠ WStatus.done
  wlen : s.workers.length = k
  errlog : ∀ t e, t ∈ s.finished → P.taskFn t = Except.error e →
    LogEntry.error (taskFailMsg (P.taskName t) e) ∈ s.log

/-! Concrete instances used in closed counterexamples and witnesses. -/

/-- Concrete path capabilities for the closed runs below: `relative` returns
the target path unchanged (task paths are bare names there) and the resolvers
join with slashes. -/
def simpleOps : PathOps :=
  ⟨fun _ t => t, fun a b => a ++ "/" ++ b, fun a b c => a ++ "/" ++ b ++ "/" ++ c⟩

/-- Concrete profile declaring no hooks. -/
def sampleProfile : Profile := ⟨"foo", "/proj", ⟨none, none⟩⟩

/-- Concrete profile declaring a `beforeAll` hook. -/
def hookProfile : Profile := ⟨"foo", "/proj", ⟨some "hook.js", none⟩⟩

/-- Hook module that registers nothing and resolves. -/
def silentHookAt : String → HookBehavior Nat := fun _ => ⟨[], Except.ok ()⟩

/-- Outcome of running `hookProfile`'s silent `beforeAll` hook on the empty heap. -/
def c3Out : HookOutcome Nat :=
  ⟨⟨[[]]⟩, some 0, ["/proj/hook.js"], [LogEntry.trace "Running beforeAll hook: hook.js"]⟩

/-- Contents of the tasks directory in the C9 counterexample: a single file
that is not a `.js` file. -/
def c9Files : List String := ["notes.txt"]

/-- Glob capability over `c9Files` using the modelled pattern semantics. -/
def c9Matcher : String → GlobOpts → List String :=
  fun pat _ => c9Files.filter (fun f => globMatch pat f)

/-- Glob capability for the C8 witness: the second pattern's only match is
also matched by the first pattern. -/
def c8Matcher : String → GlobOpts → List String :=
  fun g _ => if g = "a.js" then ["A"] else ["A", "B"]

/-- Scheduler parameters for the C1 witness: the task at path `a` rejects with
a stack, the task at path `b` resolves. -/
def c1Params : SchedParams :=
  ⟨simpleOps, sampleProfile,
   fun t =>
     if t = "a" then Except.error ⟨some "Error: boom\n    at a:1:1", "Error: boom"⟩
     else Except.ok ()⟩

/-- Scheduler parameters for the C2 witness: every task resolves. -/
def c2Params : SchedParams := ⟨simpleOps, sampleProfile, fun _ => Except.ok ()⟩

/-- Final state of the complete concrete run in the C2 witness. -/
def c2FinalState : SchedState :=
  ⟨[], [WStatus.done],
   [LogEntry.trace "Runing tasks... (concurrency = 1)",
    LogEntry.trace "Runing task: a",
    LogEntry.info "All tasks finished!"],
   ["a"], ["a"]⟩

/-! Lemmas about the screenshot path generator. -/

theorem countUnnamed_cons_unnamed (t : String) (l : List PathCall) :
    countUnnamed (⟨t, none⟩ :: l) = countUnnamed l + 1 := by
  simp [countUnnamed]

theorem countUnnamed_cons_named (t n : String) (l : List PathCall) :
    countUnnamed (⟨t, some n⟩ :: l) = countUnnamed l := by
  simp [countUnnamed]

/-- Characterisation of the result of the `i`-th call to a path-generator
closure whose counter starts at `k`, when every requested type is recognised:
a named call yields the sanitised-name suffix independently of the counter,
and an unnamed call yields the numeric suffix for `k` plus the number of
earlier unnamed calls. -/
theorem runCalls_getD (base : String) :
    ∀ (calls : List PathCall) (k i : Nat),
      (∀ c ∈ calls, (extByType c.type).isSome = true) → i < calls.length →
      (runCalls base k calls).getD i (Except.error "") =
        (match calls.getD i ⟨"", none⟩ with
         | ⟨t, some n⟩ => Except.ok (base ++ "-" ++ sanitizeName n ++ (extByType t).getD "")
         | ⟨t, none⟩ =>
           Except.ok (base ++ numSuffix (k + countUnnamed (calls.take i)) ++
             (extByType t).getD "")) := by
  intro calls
  induction calls with
  | nil => intro k i h hi; simp at hi
  | cons c rest ih =>
    intro k i h hi
    obtain ⟨ext, hext⟩ := Option.isSome_iff_exists.mp (h c (List.mem_cons_self c rest))
    have hrest : ∀ c2 ∈ rest, (extByType c2.type).isSome = true :=
      fun c2 hc2 => h c2 (List.mem_cons_of_mem c hc2)
    obtain ⟨t, nm⟩ := c
    cases nm with
    | none =>
      have hstep : runCalls base k (⟨t, none⟩ :: rest) =
          Except.ok (base ++ numSuffix k ++ ext) :: runCalls base (k + 1) rest := by
        simp [runCalls, genPathStep, hext]
      cases i with
      | zero =>
        rw [hstep]
        simp [hext, countUnnamed]
      | succ j =>
        have hj : j < rest.length := by simpa using hi
        have hih := ih (k + 1) j hrest hj
        rw [hstep, List.getD_cons_succ, hih, List.getD_cons_succ, List.take_succ_cons,
          countUnnamed_cons_unnamed]
        rcases hg : rest.getD j ⟨"", none⟩ with ⟨t2, nm2⟩
        cases nm2 with
        | none =>
          have harith : k + 1 + countUnnamed (rest.take j) =
              k + (countUnnamed (rest.take j) + 1) := by omega
          simp [harith]
        | some n2 => simp
    | some n =>
      have hstep : runCalls base k (⟨t, some n⟩ :: rest) =
          Except.ok (base ++ "-" ++ sanitizeName n ++ ext) :: runCalls base k rest := by
        simp [runCalls, genPathStep, hext]
      cases i with
      | zero =>
        rw [hstep]
        simp [hext]
      | succ j =>
        have hj : j < rest.length := by simpa using hi
        have hih := ih k j hrest hj
        rw [hstep, List.getD_cons_succ, hih, List.getD_cons_succ, List.take_succ_cons,
          countUnnamed_cons_named]

/-- Claim C6: for a fresh screenshot path-generator closure, unnamed calls
receive the suffixes `""`, `"-1"`, `"-2"`, ... in order of the unnamed calls
only, with one counter shared across image types; a named call appends
`"-" ++ sanitised name`, neither consults nor advances the counter (so its
result is independent of its position and of the interleaved unnamed calls,
and repeating it yields the identical path). -/
theorem c6_screenshot_suffix_order (base : String) (calls : List PathCall)
    (h : ∀ c ∈ calls, (extByType c.type).isSome = true) (i : Nat) (hi : i < calls.length) :
    (∀ n, (calls.getD i ⟨"", none⟩).name = some n →
      (runCalls base 0 calls).getD i (Except.error "") =
        Except.ok (base ++ "-" ++ sanitizeName n ++
          (extByType (calls.getD i ⟨"", none⟩).type).getD ""))
    ∧ ((calls.getD i ⟨"", none⟩).name = none →
      (runCalls base 0 calls).getD i (Except.error "") =
        Except.ok (base ++ numSuffix (countUnnamed (calls.take i)) ++
          (extByType (calls.getD i ⟨"", none⟩).type).getD "")) := by
  have hc := runCalls_getD base calls 0 i h hi
  rcases hg : calls.getD i ⟨"", none⟩ with ⟨t, nm⟩
  rw [hg] at hc
  constructor
  · intro n hn
    have hnm : nm = some n := hn
    subst hnm
    simpa using hc
  · intro hn
    have hnm : nm = none := hn
    subst hnm
    simpa using hc

/-- Claim C6 witness: in the call sequence unnamed-`png`, named-`jpeg`,
unnamed-`png` from a fresh closure, the third call is the second unnamed call
and receives the suffix `-1` with global numbering across types. -/
theorem c6_witness :
    (∀ c ∈ [(⟨"png", none⟩ : PathCall), ⟨"jpeg", some "a b!"⟩, ⟨"png", none⟩],
      (extByType c.type).isSome = true)
    ∧ 2 < 3
    ∧ (runCalls "/shots/test" 0
        [⟨"png", none⟩, ⟨"jpeg", some "a b!"⟩, ⟨"png", none⟩]).getD 2 (Except.error "") =
      Except.ok "/shots/test-1.png" := by
  refine ⟨by decide, by decide, ?_⟩
  have h := (c6_screenshot_suffix_order "/shots/test"
    [⟨"png", none⟩, ⟨"jpeg", some "a b!"⟩, ⟨"png", none⟩] (by decide) 2 (by decide)).2 (by rfl)
  rw [h]
  rfl

/-- Claim C7 counterexample: with `opts.type` the unrecognised string
`"nyancat"`, the resolved type is `"nyancat"` (not `"png"`) and the capture
rejects with the unknown-type error instead of proceeding with type `"png"`. -/
theorem c7_counterexample :
    resolveType (JsVal.str "nyancat") = "nyancat"
    ∧ (screenshotCall "/shots/test" 0 none (JsVal.str "nyancat")).1 =
      Except.error "unknown type 'nyancat'" := by
  exact ⟨rfl, rfl⟩

/-- Claim C7 (amended): the resolved image type equals `opts.type` whenever
`opts.type` is a string, recognised or not, and defaults to `"png"` exactly
when `opts.type` is not a string; when the resolved type is recognised the
capture proceeds with it, and when it is unrecognised the capture fails with
the unknown-type error rather than proceeding with `"png"`. -/
theorem c7_type_resolution (base : String) (counter : Nat) (name : Option String)
    (optsType : JsVal) :
    (∀ s, optsType = JsVal.str s → resolveType optsType = s)
    ∧ ((∀ s, optsType ≠ JsVal.str s) → resolveType optsType = "png")
    ∧ (extByType (resolveType optsType) = none →
        (screenshotCall base counter name optsType).1 =
          Except.error ("unknown type '" ++ resolveType optsType ++ "'"))
    ∧ (∀ ext, extByType (resolveType optsType) = some ext →
        (screenshotCall base counter name optsType).1 =
          Except.ok ⟨(match name with
             | none => base ++ numSuffix counter
             | some n => base ++ "-" ++ sanitizeName n) ++ ext, resolveType optsType⟩) := by
  refine ⟨?_, ?_, ?_, ?_⟩
  · intro s hs
    rw [hs]
    rfl
  · intro hs
    cases optsType with
    | str s => exact absurd rfl (hs s)
    | num n => rfl
    | boolean b => rfl
    | undef => rfl
  · intro hnone
    simp [screenshotCall, genPathStep, hnone]
  · intro ext hext
    cases name with
    | none => simp [screenshotCall, genPathStep, hext]
    | some n => simp [screenshotCall, genPathStep, hext]

/-- Claim C7 witness: for the recognised string type `"jpeg"` the capture
proceeds with type `"jpeg"` and the generated path. -/
theorem c7_witness :
    extByType (resolveType (JsVal.str "jpeg")) = some ".jpg"
    ∧ (screenshotCall "/shots/test" 5 none (JsVal.str "jpeg")).1 =
      Except.ok ⟨"/shots/test-5.jpg", "jpeg"⟩ := by
  refine ⟨by decide, ?_⟩
  have h := (c7_type_resolution "/shots/test" 5 none (JsVal.str "jpeg")).2.2.2 ".jpg" (by decide)
  rw [h]
  rfl

/-- Claim C10 counterexample: the relative path `"task\njs"` ends in `"js"`
preceded by the further character LF, yet the replacement leaves it unchanged
(the unescaped regex dot does not match a line terminator), contradicting the
claimed unconditional removal of the last three characters. -/
theorem c10_counterexample :
    stripJsExt "task\njs" = "task\njs" ∧ stripJsExt "task\njs" ≠ "task" := by
  exact ⟨rfl, by decide⟩

/-- Claim C10 (amended): `taskFileName.replace(/.js$/, "")` removes the last
three characters of a relative path ending in `"js"` preceded by at least one
further character exactly when that third-to-last character is not a line
terminator (`\n`, `\r`, U+2028, U+2029) — in particular, the third-to-last
character need not be a period; a path whose third-to-last character is a line
terminator, and any path not of that shape (not ending in `"js"` after some
character, e.g. shorter than three characters), is used unmodified. -/
theorem c10_strip_extension (t : List Char) (a : Char) (u : List Char) :
    (jsRegexDotMatches a = true →
      stripJsExt (String.mk (t ++ [a, 'j', 's'])) = String.mk t)
    ∧ (jsRegexDotMatches a = false →
      stripJsExt (String.mk (t ++ [a, 'j', 's'])) = String.mk (t ++ [a, 'j', 's']))
    ∧ ((∀ (v : List Char) (b : Char), u ≠ v ++ [b, 'j', 's']) →
      stripJsExt (String.mk u) = String.mk u) := by
  have hrev : (t ++ [a, 'j', 's']).reverse = 's' :: 'j' :: a :: t.reverse := by
    simp
  refine ⟨?_, ?_, ?_⟩
  · intro hdot
    simp [stripJsExt, replaceDotJsEnd, hrev, hdot]
  · intro hdot
    simp [stripJsExt, replaceDotJsEnd, hrev, hdot]
  · intro hno
    simp only [stripJsExt, replaceDotJsEnd]
    split
    · rename_i a2 rest heq
      exfalso
      apply hno rest.reverse a2
      have hu := congrArg List.reverse heq
      simpa using hu
    · rfl

/-- Claim C10 witness: the replacement removes the last three characters of
`"foo.mjs"` (third-to-last character `m`, not a period) giving `"foo."`, and
leaves `"nyancat"` (which does not end in a character followed by `"js"`)
unmodified. -/
theorem c10_witness :
    jsRegexDotMatches 'm' = true
    ∧ stripJsExt "foo.mjs" = "foo."
    ∧ stripJsExt "nyancat" = "nyancat" := by
  refine ⟨by decide, ?_, ?_⟩
  · have h := (c10_strip_extension ['f', 'o', 'o', '.'] 'm' []).1 (by decide)
    simpa using h
  · have h := (c10_strip_extension [] 'a' ['n', 'y', 'a', 'n', 'c', 'a', 't']).2.2 ?_
    · simpa using h
    · intro v b hvb
      have h2 := congrArg List.reverse hvb
      simp [List.reverse_append] at h2

/-! Lemmas about JavaScript objects and the context merge. -/

theorem jsLookup_jsSetProp_self {α : Type} (m : RegMap α) (k : String) (v : α) :
    jsLookup (jsSetProp m k v) k = some v := by
  induction m with
  | nil => simp [jsSetProp, jsLookup]
  | cons kv rest ih =>
    obtain ⟨k1, v1⟩ := kv
    by_cases h : k1 = k
    · subst h
      simp [jsSetProp, jsLookup]
    · simp [jsSetProp, jsLookup, h, ih]

theorem jsLookup_jsSetProp_ne {α : Type} (m : RegMap α) (k q : String) (v : α)
    (h : q ≠ k) : jsLookup (jsSetProp m k v) q = jsLookup m q := by
  induction m with
  | nil => simp [jsSetProp, jsLookup, Ne.symm h]
  | cons kv rest ih =>
    obtain ⟨k1, v1⟩ := kv
    by_cases h1 : k1 = k
    · subst h1
      simp [jsSetProp, jsLookup, Ne.symm h, h]
    · by_cases h2 : k1 = q <;> simp [jsSetProp, jsLookup, h1, h2, h, ih]

theorem jsLookup_eq_none_of_not_mem {α : Type} (m : RegMap α) (k : String)
    (h : k ∉ m.map Prod.fst) : jsLookup m k = none := by
  induction m with
  | nil => rfl
  | cons kv rest ih =>
    obtain ⟨k1, v1⟩ := kv
    simp only [List.map_cons, List.mem_cons, not_or] at h
    simp [jsLookup, Ne.symm h.1, ih h.2]

theorem objectAssign_lookup_none {β : Type} (source : List (String × β)) :
    ∀ (target : List (String × β)) (k : String), jsLookup source k = none →
      jsLookup (objectAssign target source) k = jsLookup target k := by
  induction source with
  | nil => intro target k _; rfl
  | cons kv rest ih =>
    intro target k hk
    obtain ⟨k1, v1⟩ := kv
    by_cases h1 : k1 = k
    · subst h1
      simp [jsLookup] at hk
    · simp [jsLookup, h1] at hk
      have := ih (jsSetProp target k1 v1) k hk
      simp only [objectAssign, List.foldl_cons] at *
      rw [this, jsLookup_jsSetProp_ne _ _ _ _ (Ne.symm h1)]

theorem objectAssign_lookup_some {β : Type} (source : List (String × β)) :
    ∀ (target : List (String × β)) (k : String) (v : β),
      (source.map Prod.fst).Nodup → jsLookup source k = some v →
      jsLookup (objectAssign target source) k = some v := by
  induction source with
  | nil => intro target k v _ hk; simp [jsLookup] at hk
  | cons kv rest ih =>
    intro target k v hnd hk
    obtain ⟨k1, v1⟩ := kv
    simp at hnd
    by_cases h1 : k1 = k
    · subst h1
      simp [jsLookup] at hk
      subst hk
      have hnone : jsLookup rest k1 = none :=
        jsLookup_eq_none_of_not_mem rest k1 (by simpa using hnd.1)
      simp only [objectAssign, List.foldl_cons]
      have := objectAssign_lookup_none rest (jsSetProp target k1 v1) k1 hnone
      simp only [objectAssign] at this
      rw [this, jsLookup_jsSetProp_self]
    · simp [jsLookup, h1] at hk
      simp only [objectAssign, List.foldl_cons]
      have := ih (jsSetProp target k1 v1) k v hnd.2 hk
      simpa [objectAssign] using this

theorem jsLookup_map_reg {α : Type} (l : RegMap α) (k : String) :
    jsLookup (l.map (fun kv => (kv.1, CtxVal.reg kv.2))) k =
      (jsLookup l k).map CtxVal.reg := by
  induction l with
  | nil => rfl
  | cons kv rest ih =>
    obtain ⟨k1, v1⟩ := kv
    by_cases h : k1 = k <;> simp [jsLookup, h, ih]

theorem map_fst_map_reg {α : Type} (l : RegMap α) :
    (l.map (fun kv => (kv.1, CtxVal.reg kv.2))).map Prod.fst = l.map Prod.fst := by
  induction l with
  | nil => rfl
  | cons kv rest ih => simp [ih]

/-- Claim C4: every key/value pair registered by the `beforeAll` hook is
visible in the invocation context `runTask` builds for every task, and it
overrides the fixed context fields on a key collision (even for `profile`,
`browser`, `getLogger`, `sleep` and `screenshot`), because the fixed fields
are the `Object.assign` target and the registered entries the source;
unregistered keys keep the fixed fields as defaults. -/
theorem c4_registered_args_override {α : Type} (profile : Profile) (taskFilePath : String)
    (registeredArgs : RegMap α) (hnd : (registeredArgs.map Prod.fst).Nodup) :
    (∀ k v, jsLookup registeredArgs k = some v →
      jsLookup (mkTaskArgs profile taskFilePath registeredArgs) k = some (CtxVal.reg v))
    ∧ (∀ k, jsLookup registeredArgs k = none →
      jsLookup (mkTaskArgs profile taskFilePath registeredArgs) k =
        jsLookup (fixedTaskArgs α profile taskFilePath) k) := by
  constructor
  · intro k v hk
    have hsome : jsLookup (registeredArgs.map (fun kv => (kv.1, CtxVal.reg kv.2))) k =
        some (CtxVal.reg v) := by
      rw [jsLookup_map_reg, hk]
      rfl
    exact objectAssign_lookup_some _ _ k (CtxVal.reg v)
      (by rw [map_fst_map_reg]; exact hnd) hsome
  · intro k hk
    have hnone : jsLookup (registeredArgs.map (fun kv => (kv.1, CtxVal.reg kv.2))) k = none := by
      rw [jsLookup_map_reg, hk]
      rfl
    exact objectAssign_lookup_none _ _ k hnone

/-- Claim C4 witness: registering `x = 42` and `screenshot = 7` makes every
task context map `x` to the registered `42` and makes the registered value
override the fixed `screenshot` field. -/
theorem c4_witness :
    ((([("x", 42), ("screenshot", 7)] : RegMap Nat).map Prod.fst).Nodup)
    ∧ jsLookup (mkTaskArgs sampleProfile "t.js" [("x", 42), ("screenshot", 7)]) "x" =
      some (CtxVal.reg 42)
    ∧ jsLookup (mkTaskArgs sampleProfile "t.js" [("x", 42), ("screenshot", 7)]) "screenshot" =
      some (CtxVal.reg 7) := by
  refine ⟨by decide, ?_, ?_⟩
  · exact (c4_registered_args_override sampleProfile "t.js"
      [("x", 42), ("screenshot", 7)] (by decide)).1 "x" 42 rfl
  · exact (c4_registered_args_override sampleProfile "t.js"
      [("x", 42), ("screenshot", 7)] (by decide)).1 "screenshot" 7 rfl

/-! Lemmas about the heap of `registeredArgs` objects. -/

theorem list_getElem?_set_self {β : Type} (l : List β) :
    ∀ (i : Nat) (x : β), i < l.length → (l.set i x)[i]? = some x := by
  induction l with
  | nil => intro i x h; simp at h
  | cons a rest ih =>
    intro i x h
    cases i with
    | zero => simp
    | succ j => simpa using ih j x (by simpa using h)

theorem heap_read_write_self {α : Type} (h : Heap α) (r : Nat) (m : RegMap α)
    (hr : r < h.cells.length) : (h.write r m).read r = m := by
  simp [Heap.read, Heap.write, list_getElem?_set_self h.cells r m hr]

theorem applyRegister_read_self {α : Type} (h : Heap α) (r : Nat) (n : String) (v : α)
    (hr : r < h.cells.length) :
    (applyRegister h r n v).read r = jsSetProp (h.read r) n v :=
  heap_read_write_self h r _ hr

theorem applyRegister_cells_length {α : Type} (h : Heap α) (r : Nat) (n : String) (v : α) :
    (applyRegister h r n v).cells.length = h.cells.length := by
  simp [applyRegister, Heap.write]

theorem applyCalls_cells_length {α : Type} (calls : List (String × α)) :
    ∀ (h : Heap α) (r : Nat), (applyCalls h r calls).cells.length = h.cells.length := by
  induction calls with
  | nil => intro h r; rfl
  | cons kv rest ih =>
    intro h r
    obtain ⟨n, v⟩ := kv
    rw [applyCalls, ih, applyRegister_cells_length]

/-- Claim C3 counterexample: after `runHook(profile, browser, "beforeAll", true)`
resolved (for a hook that registered nothing, so the returned map is empty), a
later call of the `register` capability changes the content of the returned
map from `[]` to `[("x", 42)]` — the returned object is the live registration
target, not a frozen copy. -/
theorem c3_counterexample :
    runHook simpleOps silentHookAt (⟨[]⟩ : Heap Nat) hookProfile "beforeAll" true =
      Except.ok c3Out
    ∧ c3Out.ret = some 0
    ∧ c3Out.heap.read 0 = []
    ∧ (applyRegister c3Out.heap 0 "x" 42).read 0 = [("x", 42)]
    ∧ ([("x", 42)] : RegMap Nat) ≠ [] := by
  exact ⟨rfl, rfl, rfl, rfl, by decide⟩

/-- Claim C3 (amended): once `runHook(profile, browser, "beforeAll", true)` has
resolved, a later call of the `register(name, value)` capability supplied to
the hook still takes effect on the returned registered-arguments map: the map
is returned by reference without being frozen or copied at hook completion, so
the returned reference keeps aliasing the registration target. -/
theorem c3_register_after_hook_mutates {α : Type} (ops : PathOps)
    (hookAt : String → HookBehavior α) (h : Heap α) (profile : Profile) (key : String)
    (out : HookOutcome α) (r : Nat) (n : String) (v : α)
    (hrun : runHook ops hookAt h profile key true = Except.ok out)
    (hret : out.ret = some r) :
    (applyRegister out.heap r n v).read r = jsSetProp (out.heap.read r) n v := by
  have hr : r < out.heap.cells.length := by
    unfold runHook at hrun
    split at hrun
    · exact absurd hrun (by simp)
    · split at hrun
      · injection hrun with h2
        subst h2
        simp [Heap.alloc] at hret ⊢
        omega
      · split at hrun
        · simp only [Heap.alloc] at hrun
          split at hrun
          · injection hrun with h2
            subst h2
            simp [Heap.alloc, applyCalls_cells_length] at hret ⊢
            omega
          · exact absurd hrun (by simp)
        · exact absurd rfl (by assumption)
  exact applyRegister_read_self out.heap r n v hr

/-- Claim C3 witness: a concrete post-completion `register("y", 5)` call on the
returned map takes effect as an insertion into the returned map. -/
theorem c3_witness :
    runHook simpleOps silentHookAt (⟨[]⟩ : Heap Nat) hookProfile "beforeAll" true =
      Except.ok c3Out
    ∧ c3Out.ret = some 0
    ∧ (applyRegister c3Out.heap 0 "y" 5).read 0 = jsSetProp (c3Out.heap.read 0) "y" 5 := by
  refine ⟨rfl, rfl, ?_⟩
  exact c3_register_after_hook_mutates simpleOps silentHookAt ⟨[]⟩ hookProfile "beforeAll"
    c3Out 0 "y" 5 rfl rfl

/-- Claim C5 counterexample: with no `afterAll` hook declared and
`allowRegistration = false`, `runHook` performs no module load and no side
effect, but returns `undefined` (modelled as `none`), not an empty
registered-arguments map. -/
theorem c5_counterexample :
    runHook simpleOps silentHookAt (⟨[]⟩ : Heap Nat) sampleProfile "afterAll" false =
      Except.ok ⟨⟨[[]]⟩, none, [], []⟩
    ∧ (HookOutcome.ret (⟨⟨[[]]⟩, none, [], []⟩ : HookOutcome Nat)).isSome = false := by
  exact ⟨rfl, rfl⟩

/-- Claim C5 (amended): for a recognised key with no declared hook path,
`runHook` is a no-op for both values of `allowRegistration`: it loads no
module, emits no log, leaves every existing heap cell untouched, and succeeds;
it returns a fresh empty registered-arguments map when `allowRegistration` is
true and `undefined` when it is false. -/
theorem c5_no_hook_noop {α : Type} (ops : PathOps) (hookAt : String → HookBehavior α)
    (h : Heap α) (profile : Profile) (key : String) (flag : Bool)
    (hkey : (hookKeys key).isSome = true) (hno : profile.hooks.get key = none) :
    runHook ops hookAt h profile key flag =
      Except.ok ⟨⟨h.cells ++ [[]]⟩, if flag then some h.cells.length else none, [], []⟩
    ∧ Heap.read (⟨h.cells ++ [([] : RegMap α)]⟩ : Heap α) h.cells.length = []
    ∧ (∀ r, r < h.cells.length →
        Heap.read (⟨h.cells ++ [([] : RegMap α)]⟩ : Heap α) r = Heap.read h r) := by
  have hk : (hookKeys key).isNone = false := by
    rcases Option.isSome_iff_exists.mp hkey with ⟨k2, hk2⟩
    simp [hk2]
  refine ⟨?_, ?_, ?_⟩
  · simp [runHook, hk, hno, Heap.alloc]
  · simp [Heap.read, List.getElem?_concat_length]
  · intro r hr
    simp [Heap.read, List.getElem?_append_left hr]

/-- Claim C5 witness: for the recognised key `"afterAll"` with no hook
declared and `allowRegistration = true`, `runHook` loads nothing, logs
nothing, and returns a fresh empty map. -/
theorem c5_witness :
    (hookKeys "afterAll").isSome = true
    ∧ sampleProfile.hooks.get "afterAll" = none
    ∧ (runHook simpleOps silentHookAt (⟨[]⟩ : Heap Nat) sampleProfile "afterAll" true =
        Except.ok ⟨⟨[[]]⟩, if true then some 0 else none, [], []⟩
      ∧ Heap.read (⟨[[]]⟩ : Heap Nat) 0 = []
      ∧ (∀ r, r < 0 → Heap.read (⟨[[]]⟩ : Heap Nat) r = Heap.read (⟨[]⟩ : Heap Nat) r)) := by
  refine ⟨by decide, rfl, ?_⟩
  exact c5_no_hook_noop simpleOps silentHookAt ⟨[]⟩ sampleProfile "afterAll" true
    (by decide) rfl

/-! Lemmas about `distinct` and task discovery. -/

/-- Membership in the index-aware filter: an element is kept at offset `i`
precisely when it occurs at some position `j` of the remaining list and its
first occurrence in the whole array is at absolute index `i + j`. -/
theorem mem_distinctAux (arr : List String) (x : String) :
    ∀ (l : List String) (i : Nat),
      (x ∈ distinctAux arr l i ↔ ∃ j, l[j]? = some x ∧ jsIndexOf arr x = i + j) := by
  intro l
  induction l with
  | nil => intro i; simp [distinctAux]
  | cons y rest ih =>
    intro i
    by_cases hy : jsIndexOf arr y = i
    · simp only [distinctAux, hy, if_pos]
      constructor
      · intro hx
        rcases List.mem_cons.mp hx with rfl | hx2
        · exact ⟨0, by simp, by omega⟩
        · obtain ⟨j, hj1, hj2⟩ := (ih (i + 1)).mp hx2
          exact ⟨j + 1, by simpa using hj1, by omega⟩
      · rintro ⟨j, hj1, hj2⟩
        cases j with
        | zero =>
          simp at hj1
          subst hj1
          exact List.mem_cons_self _ _
        | succ j2 =>
          exact List.mem_cons_of_mem y
            ((ih (i + 1)).mpr ⟨j2, by simpa using hj1, by omega⟩)
    · simp only [distinctAux, hy, if_neg, if_false]
      rw [ih (i + 1)]
      constructor
      · rintro ⟨j, hj1, hj2⟩
        exact ⟨j + 1, by simpa using hj1, by omega⟩
      · rintro ⟨j, hj1, hj2⟩
        cases j with
        | zero =>
          simp at hj1
          subst hj1
          exact absurd (by omega) hy
        | succ j2 =>
          exact ⟨j2, by simpa using hj1, by omega⟩

theorem getElem?_jsIndexOf (arr : List String) (x : String) :
    x ∈ arr → arr[jsIndexOf arr x]? = some x := by
  induction arr with
  | nil => intro h; simp at h
  | cons a rest ih =>
    intro h
    by_cases ha : a = x
    · subst ha
      simp [jsIndexOf]
    · rcases List.mem_cons.mp h with rfl | h2
      · exact absurd rfl ha
      · simp [jsIndexOf, ha, ih h2]

theorem mem_distinct (arr : List String) (x : String) : x ∈ distinct arr ↔ x ∈ arr := by
  rw [distinct, mem_distinctAux]
  constructor
  · rintro ⟨j, hj1, _⟩
    exact List.getElem?_mem hj1
  · intro hx
    exact ⟨jsIndexOf arr x, getElem?_jsIndexOf arr x hx, by omega⟩

theorem nodup_distinctAux (arr : List String) :
    ∀ (l : List String) (i : Nat), (distinctAux arr l i).Nodup := by
  intro l
  induction l with
  | nil => intro i; simp [distinctAux]
  | cons y rest ih =>
    intro i
    by_cases hy : jsIndexOf arr y = i
    · simp only [distinctAux, hy, if_pos]
      rw [List.nodup_cons]
      refine ⟨?_, ih (i + 1)⟩
      intro hmem
      obtain ⟨j, _, hj2⟩ := (mem_distinctAux arr y rest (i + 1)).mp hmem
      omega
    · simp only [distinctAux, hy, if_neg, if_false]
      exact ih (i + 1)

theorem nodup_distinct (arr : List String) : (distinct arr).Nodup :=
  nodup_distinctAux arr arr 0

theorem distinct_eq_nil_iff (arr : List String) : distinct arr = [] ↔ arr = [] := by
  constructor
  · intro h
    cases arr with
    | nil => rfl
    | cons a rest =>
      exfalso
      have hmem : a ∈ distinct (a :: rest) :=
        (mem_distinct _ _).mpr (List.mem_cons_self a rest)
      rw [h] at hmem
      simp at hmem
  · intro h
    subst h
    rfl

/-- Claim C8: with a non-empty pattern list, `findTasks` resolves each pattern
independently against the profile's tasks directory with directories excluded
and absolute paths, concatenates the per-pattern results, deduplicates them so
a path matched by several patterns appears exactly once, and fails with the
`no tasks found` error if and only if the deduplicated result set is empty
(equivalently, every pattern matched nothing). -/
theorem c8_discovery (matcher : String → GlobOpts → List String) (ops : PathOps)
    (profile : Profile) (globs : List String) (hne : globs ≠ []) :
    (findTasks matcher ops profile globs = Except.error "no tasks found" ↔
      distinct ((globs.map
        (fun g => matcher g ⟨profile.tasksDirPath ops, true, true⟩)).flatten) = [])
    ∧ (distinct ((globs.map
        (fun g => matcher g ⟨profile.tasksDirPath ops, true, true⟩)).flatten) = [] ↔
      ∀ g ∈ globs, matcher g ⟨profile.tasksDirPath ops, true, true⟩ = [])
    ∧ (∀ l, findTasks matcher ops profile globs = Except.ok l →
        l = distinct ((globs.map
          (fun g => matcher g ⟨profile.tasksDirPath ops, true, true⟩)).flatten)
        ∧ (∀ p, p ∈ l ↔ ∃ g ∈ globs, p ∈ matcher g ⟨profile.tasksDirPath ops, true, true⟩)
        ∧ (∀ p ∈ l, l.count p = 1)) := by
  have hglobs : (if globs = [] then ["**/*.js"] else globs) = globs := if_neg hne
  refine ⟨?_, ?_, ?_⟩
  · rw [findTasks, hglobs, globAll]
    split
    · rename_i hD
      simpa using hD
    · rename_i hD
      constructor
      · intro h
        exact absurd h (by simp)
      · intro h
        exact absurd h hD
  · rw [distinct_eq_nil_iff]
    constructor
    · intro h g hg
      have := List.flatten_eq_nil_iff.mp h
      exact this _ (List.mem_map_of_mem _ hg)
    · intro h
      rw [List.flatten_eq_nil_iff]
      intro x hx
      obtain ⟨g, hg, rfl⟩ := List.mem_map.mp hx
      exact h g hg
  · intro l hl
    rw [findTasks, hglobs, globAll] at hl
    split at hl
    · exact absurd hl (by simp)
    · have hld : l = distinct ((globs.map
          (fun g => matcher g ⟨profile.tasksDirPath ops, true, true⟩)).flatten) := by
        injection hl with h2
        exact h2.symm
      refine ⟨hld, ?_, ?_⟩
      · intro p
        rw [hld, mem_distinct, List.mem_flatten]
        constructor
        · rintro ⟨s, hs, hps⟩
          obtain ⟨g, hg, rfl⟩ := List.mem_map.mp hs
          exact ⟨g, hg, hps⟩
        · rintro ⟨g, hg, hps⟩
          exact ⟨_, List.mem_map_of_mem _ hg, hps⟩
      · intro p hp
        rw [hld] at hp ⊢
        exact List.count_eq_one_of_mem (nodup_distinct _) hp

/-- Claim C8 witness: two patterns whose result sets overlap in path `A` give
the deduplicated result set where `A` and `B` each appear exactly once. -/
theorem c8_witness :
    (["g", "a.js"] : List String) ≠ []
    ∧ findTasks c8Matcher simpleOps sampleProfile ["g", "a.js"] = Except.ok ["A", "B"]
    ∧ (["A", "B"] : List String).count "A" = 1
    ∧ (["A", "B"] : List String).count "B" = 1 := by
  refine ⟨by decide, rfl, ?_, ?_⟩
  · exact ((c8_discovery c8Matcher simpleOps sampleProfile ["g", "a.js"]
      (by decide)).2.2 ["A", "B"] rfl).2.2 "A" (by decide)
  · exact ((c8_discovery c8Matcher simpleOps sampleProfile ["g", "a.js"]
      (by decide)).2.2 ["A", "B"] rfl).2.2 "B" (by decide)

/-- Claim C9 counterexample: the substituted default pattern is `**/*.js`,
which does not match the file `notes.txt` in the tasks directory; with that
file as the directory's only content, `findTasks` with an empty glob list
fails with `no tasks found` instead of treating every file as a candidate
task. -/
theorem c9_counterexample :
    globMatch "**/*.js" "notes.txt" = false
    ∧ "notes.txt" ∈ c9Files
    ∧ c9Matcher "**/*.js" ⟨sampleProfile.tasksDirPath simpleOps, true, true⟩ = []
    ∧ findTasks c9Matcher simpleOps sampleProfile [] = Except.error "no tasks found" := by
  exact ⟨by decide, by decide, rfl, rfl⟩

/-- Claim C9 (amended): with an empty glob list, `findTasks` substitutes the
single default pattern `**/*.js`, behaving exactly as a call with that one
pattern; the pattern matches `.js` files recursively under the tasks
directory (e.g. `pages/main.js` and `nyancat.js`) but not files with other
extensions (e.g. `notes.txt`), so not every file is a candidate task. -/
theorem c9_default_pattern (matcher : String → GlobOpts → List String) (ops : PathOps)
    (profile : Profile) :
    findTasks matcher ops profile [] = findTasks matcher ops profile ["**/*.js"]
    ∧ globMatch "**/*.js" "pages/main.js" = true
    ∧ globMatch "**/*.js" "nyancat.js" = true
    ∧ globMatch "**/*.js" "notes.txt" = false := by
  exact ⟨rfl, by decide, by decide, by decide⟩

/-! Lemmas about the task scheduler. -/

theorem exists_split_of_getElem? {β : Type} :
    ∀ (l : List β) (i : Nat) (w : β), l[i]? = some w →
      ∃ pre post, l = pre ++ w :: post ∧ pre.length = i := by
  intro l
  induction l with
  | nil => intro i w h; simp at h
  | cons a rest ih =>
    intro i w h
    cases i with
    | zero =>
      simp at h
      subst h
      exact ⟨[], rest, rfl, rfl⟩
    | succ j =>
      rw [List.getElem?_cons_succ] at h
      obtain ⟨pre, post, hl, hp⟩ := ih j w h
      exact ⟨a :: pre, post, by rw [hl]; rfl, by simp [hp]⟩

theorem set_append_cons {β : Type} :
    ∀ (pre : List β) (w x : β) (post : List β),
      (pre ++ w :: post).set pre.length x = pre ++ x :: post := by
  intro pre
  induction pre with
  | nil => intro w x post; rfl
  | cons a rest ih =>
    intro w x post
    show a :: (rest ++ w :: post).set rest.length x = a :: (rest ++ x :: post)
    rw [ih]

theorem getLast?_decomp {β : Type} :
    ∀ (l : List β) (t : β), l.getLast? = some t → l = l.dropLast ++ [t] := by
  intro l
  induction l with
  | nil => intro t h; simp at h
  | cons a rest ih =>
    intro t h
    cases rest with
    | nil =>
      simp [List.getLast?] at h
      subst h
      rfl
    | cons b rest2 =>
      rw [List.getLast?_cons_cons] at h
      have h2 := ih t h
      calc a :: b :: rest2 = a :: ((b :: rest2).dropLast ++ [t]) := by rw [← h2]
        _ = (a :: b :: rest2).dropLast ++ [t] := by rfl

theorem getLast?_eq_none_imp {β : Type} (l : List β) (h : l.getLast? = none) : l = [] := by
  simpa using h

theorem runningTasks_append (a b : List WStatus) :
    runningTasks (a ++ b) = runningTasks a ++ runningTasks b := by
  simp [runningTasks]

theorem runningTasks_eq_nil_of_all_done :
    ∀ (ws : List WStatus), (∀ w ∈ ws, w = WStatus.done) → runningTasks ws = [] := by
  intro ws
  induction ws with
  | nil => intro _; rfl
  | cons w rest ih =>
    intro h
    have hw := h w (List.mem_cons_self _ _)
    subst hw
    show runningTasks (WStatus.done :: rest) = []
    have : runningTasks (WStatus.done :: rest) = runningTasks rest := by
      simp [runningTasks]
    rw [this]
    exact ih (fun w2 hw2 => h w2 (List.mem_cons_of_mem _ hw2))

theorem runningTasks_replicate_idle (n : Nat) :
    runningTasks (List.replicate n WStatus.idle) = [] := by
  induction n with
  | zero => rfl
  | succ m ih =>
    rw [List.replicate_succ]
    have : runningTasks (WStatus.idle :: List.replicate m WStatus.idle) =
        runningTasks (List.replicate m WStatus.idle) := by
      simp [runningTasks]
    rw [this, ih]

theorem allDone_iff (s : SchedState) :
    allDone s = true ↔ ∀ w ∈ s.workers, w = WStatus.done := by
  simp [allDone, List.all_eq_true]

/-- One worker turn preserves the scheduler invariant. -/
theorem workerStep_inv {P : SchedParams} {tasks : List String} {k : Nat} {s s2 : SchedState}
    {i : Nat} (hInv : SchedInv P tasks k s) (hstep : workerStep P s i = some s2) :
    SchedInv P tasks k s2 := by
  rcases hInv with ⟨hcons, hstart, hnd, hwl, herr⟩
  cases hw : s.workers[i]? with
  | none => simp [workerStep, hw] at hstep
  | some w =>
    obtain ⟨pre, post, hws, hlen⟩ := exists_split_of_getElem? _ _ _ hw
    cases w with
    | done => simp [workerStep, hw] at hstep
    | idle =>
      cases hq : s.queue.getLast? with
      | some t =>
        have hqd : s.queue = s.queue.dropLast ++ [t] := getLast?_decomp _ _ hq
        simp only [workerStep, hw, hq, Option.some.injEq] at hstep
        subst hstep
        have hset : s.workers.set i (WStatus.running t) = pre ++ WStatus.running t :: post := by
          rw [hws, ← hlen, set_append_cons]
        have hr0 : runningTasks s.workers = runningTasks pre ++ runningTasks post := by
          rw [hws, runningTasks_append]
          simp [runningTasks]
        have hr1 : runningTasks (s.workers.set i (WStatus.running t)) =
            runningTasks pre ++ t :: runningTasks post := by
          rw [hset, runningTasks_append]
          simp [runningTasks]
        refine ⟨?_, ?_, ?_, ?_, ?_⟩
        · show (s.queue.dropLast ++ runningTasks (s.workers.set i (WStatus.running t)) ++
            s.finished).Perm tasks
          rw [hr1]
          have hgoal : List.Perm
              (s.queue.dropLast ++ (runningTasks pre ++ t :: runningTasks post) ++ s.finished)
              (s.queue ++ runningTasks s.workers ++ s.finished) := by
            rw [hr0]
            conv_rhs => rw [hqd]
            simp only [List.append_assoc, List.cons_append, List.singleton_append]
            exact List.Perm.append_left _ List.perm_middle
          exact hgoal.trans hcons
        · show (s.started ++ [t]).Perm
            (runningTasks (s.workers.set i (WStatus.running t)) ++ s.finished)
          rw [hr1]
          refine (hstart.append_right [t]).trans ?_
          rw [hr0]
          refine List.Perm.trans List.perm_append_comm ?_
          have h2 : [t] ++ ((runningTasks pre ++ runningTasks post) ++ s.finished) =
              t :: (runningTasks pre ++ (runningTasks post ++ s.finished)) := by
            simp
          have h3 : (runningTasks pre ++ t :: runningTasks post) ++ s.finished =
              runningTasks pre ++ t :: (runningTasks post ++ s.finished) := by
            simp
          rw [h2, h3]
          exact List.perm_middle.symm
        · intro hne w hmem
          dsimp only at hne hmem
          have hqne : s.queue ≠ [] := by
            rw [hqd]
            simp
          have hold := hnd hqne
          rw [hset] at hmem
          rcases List.mem_append.mp hmem with h2 | h2
          · exact hold w (by rw [hws]; exact List.mem_append_left _ h2)
          · rcases List.mem_cons.mp h2 with rfl | h3
            · simp
            · exact hold w
                (by rw [hws]; exact List.mem_append_right _ (List.mem_cons_of_mem _ h3))
        · show (s.workers.set i (WStatus.running t)).length = k
          simp [List.length_set, hwl]
        · intro t2 e ht2 he
          exact List.mem_append_left _ (herr t2 e ht2 he)
      | none =>
        have hqnil : s.queue = [] := getLast?_eq_none_imp _ hq
        simp only [workerStep, hw, hq, Option.some.injEq] at hstep
        subst hstep
        have hset : s.workers.set i WStatus.done = pre ++ WStatus.done :: post := by
          rw [hws, ← hlen, set_append_cons]
        have hr0 : runningTasks s.workers = runningTasks pre ++ runningTasks post := by
          rw [hws, runningTasks_append]
          simp [runningTasks]
        have hr1 : runningTasks (s.workers.set i WStatus.done) =
            runningTasks pre ++ runningTasks post := by
          rw [hset, runningTasks_append]
          simp [runningTasks]
        refine ⟨?_, ?_, ?_, ?_, ?_⟩
        · show (s.queue ++ runningTasks (s.workers.set i WStatus.done) ++ s.finished).Perm tasks
          rw [hr1, ← hr0]
          exact hcons
        · show s.started.Perm (runningTasks (s.workers.set i WStatus.done) ++ s.finished)
          rw [hr1, ← hr0]
          exact hstart
        · intro hne
          dsimp only at hne
          exact absurd hqnil hne
        · show (s.workers.set i WStatus.done).length = k
          simp [List.length_set, hwl]
        · exact herr
    | running t =>
      simp only [workerStep, hw, Option.some.injEq] at hstep
      subst hstep
      have hset : s.workers.set i WStatus.idle = pre ++ WStatus.idle :: post := by
        rw [hws, ← hlen, set_append_cons]
      have hr0 : runningTasks s.workers = runningTasks pre ++ t :: runningTasks post := by
        rw [hws, runningTasks_append]
        simp [runningTasks]
      have hr1 : runningTasks (s.workers.set i WStatus.idle) =
          runningTasks pre ++ runningTasks post := by
        rw [hset, runningTasks_append]
        simp [runningTasks]
      refine ⟨?_, ?_, ?_, ?_, ?_⟩
      · show (s.queue ++ runningTasks (s.workers.set i WStatus.idle) ++
          (s.finished ++ [t])).Perm tasks
        rw [hr1]
        have hmid : List.Perm
            (s.queue ++ (runningTasks pre ++ runningTasks post) ++ (s.finished ++ [t]))
            (s.queue ++ runningTasks s.workers ++ s.finished) := by
          rw [hr0]
          simp only [List.append_assoc, List.cons_append]
          refine List.Perm.append_left _ (List.Perm.append_left _ ?_)
          have h1 : runningTasks post ++ (s.finished ++ [t]) =
              (runningTasks post ++ s.finished) ++ [t] := by
            simp
          rw [h1]
          exact List.perm_append_comm
        exact hmid.trans hcons
      · show s.started.Perm (runningTasks (s.workers.set i WStatus.idle) ++ (s.finished ++ [t]))
        rw [hr1]
        refine hstart.trans ?_
        rw [hr0]
        simp only [List.append_assoc, List.cons_append]
        refine List.Perm.append_left _ ?_
        have h1 : runningTasks post ++ (s.finished ++ [t]) =
            (runningTasks post ++ s.finished) ++ [t] := by
          simp
        rw [h1]
        exact @List.perm_append_comm _ [t] (runningTasks post ++ s.finished)
      · intro hne w hmem
        dsimp only at hne hmem
        have hold := hnd hne
        rw [hset] at hmem
        rcases List.mem_append.mp hmem with h2 | h2
        · exact hold w (by rw [hws]; exact List.mem_append_left _ h2)
        · rcases List.mem_cons.mp h2 with rfl | h3
          · simp
          · exact hold w
              (by rw [hws]; exact List.mem_append_right _ (List.mem_cons_of_mem _ h3))
      · show (s.workers.set i WStatus.idle).length = k
        simp [List.length_set, hwl]
      · intro t2 e ht2 he
        dsimp only at ht2 ⊢
        rcases List.mem_append.mp ht2 with h2 | h2
        · exact List.mem_append_left _ (herr t2 e h2 he)
        · have ht2t : t2 = t := by simpa using h2
          subst ht2t
          rw [he]
          simp

/-- Every worker turn strictly decreases the termination measure. -/
theorem workerStep_measure {P : SchedParams} {s s2 : SchedState} {i : Nat}
    (hstep : workerStep P s i = some s2) : schedMeasure s2 < schedMeasure s := by
  cases hw : s.workers[i]? with
  | none => simp [workerStep, hw] at hstep
  | some w =>
    obtain ⟨pre, post, hws, hlen⟩ := exists_split_of_getElem? _ _ _ hw
    cases w with
    | done => simp [workerStep, hw] at hstep
    | idle =>
      cases hq : s.queue.getLast? with
      | some t =>
        have hqd : s.queue = s.queue.dropLast ++ [t] := getLast?_decomp _ _ hq
        simp only [workerStep, hw, hq, Option.some.injEq] at hstep
        subst hstep
        have hset : s.workers.set i (WStatus.running t) = pre ++ WStatus.running t :: post := by
          rw [hws, ← hlen, set_append_cons]
        have hql : s.queue.length = s.queue.dropLast.length + 1 := by
          conv_lhs => rw [hqd]
          simp
        simp only [schedMeasure]
        rw [hset, hws]
        simp only [List.map_append, List.sum_append, List.map_cons, List.sum_cons, wWeight]
        omega
      | none =>
        simp only [workerStep, hw, hq, Option.some.injEq] at hstep
        subst hstep
        have hset : s.workers.set i WStatus.done = pre ++ WStatus.done :: post := by
          rw [hws, ← hlen, set_append_cons]
        simp only [schedMeasure]
        rw [hset, hws]
        simp only [List.map_append, List.sum_append, List.map_cons, List.sum_cons, wWeight]
        omega
    | running t =>
      simp only [workerStep, hw, Option.some.injEq] at hstep
      subst hstep
      have hset : s.workers.set i WStatus.idle = pre ++ WStatus.idle :: post := by
        rw [hws, ← hlen, set_append_cons]
      simp only [schedMeasure]
      rw [hset, hws]
      simp only [List.map_append, List.sum_append, List.map_cons, List.sum_cons, wWeight]
      omega

/-- While some worker has not left its loop, some worker can take a turn. -/
theorem workerStep_progress {P : SchedParams} {s : SchedState} (h : allDone s = false) :
    ∃ i s2, workerStep P s i = some s2 := by
  have hex : ∃ w ∈ s.workers, w ≠ WStatus.done := by
    by_contra hall
    push_neg at hall
    have : allDone s = true := (allDone_iff s).mpr hall
    rw [this] at h
    cases h
  obtain ⟨w, hw, hwd⟩ := hex
  obtain ⟨i, hi⟩ := List.mem_iff_get?.mp hw
  rw [List.get?_eq_getElem?] at hi
  cases w with
  | done => exact absurd rfl hwd
  | idle =>
    have hsome : (workerStep P s i).isSome = true := by
      rw [workerStep, hi]
      cases s.queue.getLast? <;> rfl
    obtain ⟨s2, hs2⟩ := Option.isSome_iff_exists.mp hsome
    exact ⟨i, s2, hs2⟩
  | running t =>
    have hsome : (workerStep P s i).isSome = true := by
      rw [workerStep, hi]
      rfl
    obtain ⟨s2, hs2⟩ := Option.isSome_iff_exists.mp hsome
    exact ⟨i, s2, hs2⟩

theorem runSched_append (P : SchedParams) :
    ∀ (a b : List Nat) (s : SchedState),
      runSched P s (a ++ b) = runSched P (runSched P s a) b := by
  intro a
  induction a with
  | nil => intro b s; rfl
  | cons i rest ih =>
    intro b s
    show runSched P s ((i :: rest) ++ b) = runSched P (runSched P s (i :: rest)) b
    rw [List.cons_append, runSched, runSched]
    cases hstep : workerStep P s i with
    | some s2 => exact ih b s2
    | none => exact ih b s

theorem runSched_inv {P : SchedParams} {tasks : List String} {k : Nat} :
    ∀ (sched : List Nat) (s : SchedState),
      SchedInv P tasks k s → SchedInv P tasks k (runSched P s sched) := by
  intro sched
  induction sched with
  | nil => intro s h; exact h
  | cons i rest ih =>
    intro s h
    rw [runSched]
    cases hstep : workerStep P s i with
    | some s2 => exact ih s2 (workerStep_inv h hstep)
    | none => exact ih s h

/-- From any state, some continuation of the schedule finishes all workers
(the scheduler cannot deadlock and cannot run forever). -/
theorem runSched_drive (P : SchedParams) :
    ∀ (n : Nat) (s : SchedState), schedMeasure s ≤ n →
      ∃ ext, allDone (runSched P s ext) = true := by
  intro n
  induction n with
  | zero =>
    intro s hs
    cases hall : allDone s with
    | true => exact ⟨[], by rw [runSched]; exact hall⟩
    | false =>
      obtain ⟨i, s2, hstep⟩ := @workerStep_progress P s hall
      have := workerStep_measure hstep
      omega
  | succ m ih =>
    intro s hs
    cases hall : allDone s with
    | true => exact ⟨[], by rw [runSched]; exact hall⟩
    | false =>
      obtain ⟨i, s2, hstep⟩ := @workerStep_progress P s hall
      have hm := workerStep_measure hstep
      obtain ⟨ext, hext⟩ := ih s2 (by omega)
      refine ⟨i :: ext, ?_⟩
      rw [runSched, hstep]
      exact hext

/-- The scheduler invariant holds initially. -/
theorem initState_inv (P : SchedParams) (tasks : List String) (mc : Option Int) :
    SchedInv P tasks (concurrencyOf tasks.length mc) (initState tasks mc) := by
  refine ⟨?_, ?_, ?_, ?_, ?_⟩
  · show (tasks ++ runningTasks (List.replicate (concurrencyOf tasks.length mc) WStatus.idle)
      ++ []).Perm tasks
    rw [runningTasks_replicate_idle]
    simp
  · show ([] : List String).Perm
      (runningTasks (List.replicate (concurrencyOf tasks.length mc) WStatus.idle) ++ [])
    rw [runningTasks_replicate_idle]
    exact List.Perm.refl _
  · intro _ w hw
    have := List.eq_of_mem_replicate hw
    subst this
    simp
  · show (List.replicate (concurrencyOf tasks.length mc) WStatus.idle).length =
      concurrencyOf tasks.length mc
    simp
  · intro t e ht _
    simp [initState] at ht

/-- Facts about any resolved `runTasks` run: the started and the finished
tasks are each a permutation of the task list, and every finished failing
task's error line is in the final log. -/
theorem runTasks_some_facts (P : SchedParams) (tasks : List String) (mc : Option Int)
    (sched : List Nat) (s : SchedState) (hrun : runTasks P tasks mc sched = some s) :
    s.started.Perm tasks ∧ s.finished.Perm tasks ∧
      (∀ t e, t ∈ s.finished → P.taskFn t = Except.error e →
        LogEntry.error (taskFailMsg (P.taskName t) e) ∈ s.log) := by
  rw [runTasks] at hrun
  split at hrun
  case isFalse => exact absurd hrun (by simp)
  case isTrue hall =>
    injection hrun with hrun
    subst hrun
    have hinv : SchedInv P tasks (concurrencyOf tasks.length mc)
        (runSched P (initState tasks mc) sched) :=
      runSched_inv sched (initState tasks mc) (initState_inv P tasks mc)
    rcases hinv with ⟨hcons, hstart, hnd, hwl, herr⟩
    have halldone := (allDone_iff _).mp hall
    have hrt : runningTasks (runSched P (initState tasks mc) sched).workers = [] :=
      runningTasks_eq_nil_of_all_done _ halldone
    have hq : (runSched P (initState tasks mc) sched).queue = [] := by
      by_cases htask : tasks = []
      · subst htask
        have h0 := hcons.eq_nil
        rw [hrt] at h0
        exact (by simpa using h0 : _ ∧ _).1
      · have hk : 0 < concurrencyOf tasks.length mc := by
          have hlp : 0 < tasks.length := List.length_pos.mpr htask
          cases mc with
          | none =>
            simp only [concurrencyOf]
            omega
          | some m =>
            simp only [concurrencyOf]
            split
            · rename_i hm
              omega
            · omega
        by_contra hqne
        have hwne : 0 < (runSched P (initState tasks mc) sched).workers.length := by
          rw [hwl]
          exact hk
        obtain ⟨w, hwmem⟩ := List.exists_mem_of_length_pos hwne
        exact (hnd hqne w hwmem) (halldone w hwmem)
    have hfin : (runSched P (initState tasks mc) sched).finished.Perm tasks := by
      have hc := hcons
      rw [hq, hrt] at hc
      simpa using hc
    have hstarted : (runSched P (initState tasks mc) sched).started.Perm tasks := by
      have hs2 := hstart
      rw [hrt] at hs2
      exact (by simpa using hs2 :
        (runSched P (initState tasks mc) sched).started.Perm
          (runSched P (initState tasks mc) sched).finished).trans hfin
    exact ⟨hstarted, hfin, fun t e ht he => List.mem_append_left _ (herr t e ht he)⟩

/-- Claim C1: for every profile, browser, and non-empty task list, whatever
subset of the task functions throw or reject, every scheduled run that
completes has invoked every task in the list and has logged each failing
task's error under the task's path relative to the tasks directory (with the
stack when available); and every schedule can be extended so that `runTasks`
resolves — the model has no rejecting outcome, task failures being caught in
`runTask`. -/
theorem c1_failure_isolation (P : SchedParams) (tasks : List String) (mc : Option Int)
    (hne : tasks ≠ []) :
    (∀ sched s, runTasks P tasks mc sched = some s →
      (∀ t ∈ tasks, t ∈ s.started)
      ∧ (∀ t e, t ∈ tasks → P.taskFn t = Except.error e →
          LogEntry.error (taskFailMsg (P.taskName t) e) ∈ s.log))
    ∧ (∀ sched, ∃ ext, (runTasks P tasks mc (sched ++ ext)).isSome = true) := by
  constructor
  · intro sched s hrun
    obtain ⟨hstarted, hfin, herr⟩ := runTasks_some_facts P tasks mc sched s hrun
    constructor
    · intro t ht
      exact hstarted.mem_iff.mpr ht
    · intro t e ht he
      exact herr t e (hfin.mem_iff.mpr ht) he
  · intro sched
    obtain ⟨ext, hext⟩ := runSched_drive P
      (schedMeasure (runSched P (initState tasks mc) sched))
      (runSched P (initState tasks mc) sched) (Nat.le_refl _)
    refine ⟨ext, ?_⟩
    rw [runTasks, runSched_append, hext]
    rfl

/-- Claim C1 witness: with two tasks of which `a` rejects, the theorem applies
at the concrete parameters. -/
theorem c1_witness :
    (["a", "b"] : List String) ≠ []
    ∧ ((∀ sched s, runTasks c1Params ["a", "b"] (some 2) sched = some s →
        (∀ t ∈ (["a", "b"] : List String), t ∈ s.started)
        ∧ (∀ t e, t ∈ (["a", "b"] : List String) → c1Params.taskFn t = Except.error e →
            LogEntry.error (taskFailMsg (c1Params.taskName t) e) ∈ s.log))
      ∧ (∀ sched, ∃ ext,
          (runTasks c1Params ["a", "b"] (some 2) (sched ++ ext)).isSome = true)) :=
  ⟨by decide, c1_failure_isolation c1Params ["a", "b"] (some 2) (by decide)⟩

/-- Claim C2: for every profile, browser, distinct task list and any
`maxConcurrency`, every completed scheduled run has invoked the task at each
listed path exactly once: the started list is a permutation of the task list,
and each listed path was started exactly once, however many workers drained
the shared queue. -/
theorem c2_each_task_once (P : SchedParams) (tasks : List String) (mc : Option Int)
    (sched : List Nat) (s : SchedState) (hnd : tasks.Nodup)
    (hrun : runTasks P tasks mc sched = some s) :
    s.started.Perm tasks ∧ ∀ t ∈ tasks, s.started.count t = 1 := by
  obtain ⟨hstarted, _, _⟩ := runTasks_some_facts P tasks mc sched s hrun
  refine ⟨hstarted, ?_⟩
  intro t ht
  rw [hstarted.count_eq]
  exact List.count_eq_one_of_mem hnd ht

/-- Claim C2 witness: a complete concrete run of one task under the
round-robin schedule starts the task exactly once. -/
theorem c2_witness :
    (["a"] : List String).Nodup
    ∧ runTasks c2Params ["a"] none [0, 0, 0] = some c2FinalState
    ∧ (c2FinalState.started.Perm ["a"]
      ∧ ∀ t ∈ (["a"] : List String), c2FinalState.started.count t = 1) := by
  refine ⟨by decide, rfl, ?_⟩
  exact c2_each_task_once c2Params ["a"] none [0, 0, 0] c2FinalState (by decide) rfl

end Archerfish
